import Mathlib

/-!
Verification of the mail archiver core (mailarchiver.py).

Strings are modelled as `List Char` (`Str`).  Each definition in the
`MailArchiver` namespace is a direct shallow embedding of the Python
function of the same name; file-system state is passed explicitly.
-/

set_option maxRecDepth 10000

abbrev Str := List Char

namespace MailArchiver

/-! ## Blob splitter and joiner

`parse_emails_from_file` does `file_contents.split(divider_char)` where
`divider_char` is a single character; `save_emails_to_file` does
`divider_char.join(emails)`.  We model Python `str.split` with a
one-character separator and `str.join`. -/

/-- Python `s.split(d)` for a one-character separator `d`. -/
def splitOnChar (d : Char) : Str → List Str
  | [] => [[]]
  | c :: rest =>
    if c = d then [] :: splitOnChar d rest
    else
      match splitOnChar d rest with
      | [] => [[c]]
      | g :: gs => (c :: g) :: gs

/-- Python `d.join(fragments)` for a one-character separator `d`. -/
def joinChar (d : Char) : List Str → Str
  | [] => []
  | [f] => f
  | f :: g :: rest => f ++ d :: joinChar d (g :: rest)

theorem splitOnChar_ne_nil (d : Char) (s : Str) : splitOnChar d s ≠ [] := by
  cases s with
  | nil => simp [splitOnChar]
  | cons c rest =>
    simp only [splitOnChar]
    split
    · simp
    · split
      · simp
      · simp

theorem joinChar_cons (d : Char) (f g : Str) (rest : List Str) :
    joinChar d (f :: g :: rest) = f ++ d :: joinChar d (g :: rest) := rfl

/-- Round trip: joining the fragments produced by a split reproduces the blob. -/
theorem join_splitOnChar (d : Char) : ∀ s : Str, joinChar d (splitOnChar d s) = s := by
  intro s
  induction s with
  | nil => rfl
  | cons c rest ih =>
    simp only [splitOnChar]
    by_cases hc : c = d
    · rw [if_pos hc]
      rcases hsp : splitOnChar d rest with _ | ⟨g, gs⟩
      · exact absurd hsp (splitOnChar_ne_nil d rest)
      · rw [hsp] at ih
        rw [joinChar_cons, hc]
        simpa using ih
    · rw [if_neg hc]
      rcases hsp : splitOnChar d rest with _ | ⟨g, gs⟩
      · exact absurd hsp (splitOnChar_ne_nil d rest)
      · rw [hsp] at ih
        cases gs with
        | nil => simpa [joinChar] using ih
        | cons h t =>
          rw [joinChar_cons] at ih ⊢
          simp only [List.cons_append, List.cons.injEq, true_and]
          simpa using ih

/-- Splitting a delimiter-free fragment returns just that fragment. -/
theorem splitOnChar_no_delim (d : Char) : ∀ f : Str, d ∉ f → splitOnChar d f = [f] := by
  intro f
  induction f with
  | nil => intro _; rfl
  | cons c rest ih =>
    intro hmem
    have hc : ¬ c = d := fun h => hmem (h ▸ List.mem_cons_self c rest)
    have hrest : d ∉ rest := fun h => hmem (List.mem_cons_of_mem c h)
    simp only [splitOnChar, if_neg hc, ih hrest]

theorem splitOnChar_append_delim (d : Char) :
    ∀ f t : Str, d ∉ f → splitOnChar d (f ++ d :: t) = f :: splitOnChar d t := by
  intro f
  induction f with
  | nil => intro t _; simp [splitOnChar]
  | cons c rest ih =>
    intro t hmem
    have hc : ¬ c = d := fun h => hmem (h ▸ List.mem_cons_self c rest)
    have hrest : d ∉ rest := fun h => hmem (List.mem_cons_of_mem c h)
    have h2 := ih t hrest
    simp only [List.cons_append, splitOnChar, if_neg hc]
    rw [show rest.append (d :: t) = rest ++ d :: t from rfl, h2]

/-- Splitting the join of a nonempty sequence of delimiter-free fragments
returns the original sequence. -/
theorem splitOnChar_joinChar (d : Char) :
    ∀ fs : List Str, fs ≠ [] → (∀ f ∈ fs, d ∉ f) →
      splitOnChar d (joinChar d fs) = fs := by
  intro fs
  induction fs with
  | nil => intro h; exact absurd rfl h
  | cons f rest ih =>
    intro _ hfree
    cases rest with
    | nil =>
      simpa [joinChar] using splitOnChar_no_delim d f (hfree f (List.mem_cons_self f []))
    | cons g t =>
      rw [joinChar_cons]
      rw [splitOnChar_append_delim d f (joinChar d (g :: t))
        (hfree f (List.mem_cons_self f (g :: t)))]
      rw [ih (by simp) (fun x hx => hfree x (List.mem_cons_of_mem f hx))]

/-! ## Batch reassembly (`save_emails_to_file`)

The persisted input artifact is modelled as `Option Str` (`none` means
the file does not exist).  The function returns the new state of the
artifact: with an empty email list the file is removed (if present),
otherwise the delimiter-joined blob is written. -/

def save_emails_to_file (emails : List Str) (divider_char : Char) (_prior : Option Str) :
    Option Str :=
  if emails.length = 0 then
    -- `if os.path.isfile(filename): os.remove(filename)`: the artifact is
    -- absent afterwards whether or not it existed before.
    none
  else
    some (joinChar divider_char emails)

/-- C6 counterexample: the claim asserts that for every sequence of
fragments none of which contains the delimiter, splitting their joined
form returns the original sequence.  The empty sequence (vacuously
delimiter-free) refutes this: joining `[]` gives the empty blob, which
splits into one empty fragment, not into `[]`. -/
theorem C6_counterexample :
    joinChar (Char.ofNat 12) ([] : List Str) = []
    ∧ splitOnChar (Char.ofNat 12) (joinChar (Char.ofNat 12) ([] : List Str)) = [[]]
    ∧ ([[]] : List Str) ≠ ([] : List Str) := by
  refine ⟨rfl, rfl, by decide⟩

/-- C6 (amended): `join (split blob d) d = blob` for every blob; the empty
blob splits into a single empty fragment; and for every NONEMPTY sequence
of delimiter-free fragments, splitting their joined form returns the
original sequence.  (The claim's inverse direction fails only for the
empty sequence.) -/
theorem C6_theorem :
    (∀ (d : Char) (s : Str), joinChar d (splitOnChar d s) = s)
    ∧ (∀ d : Char, splitOnChar d [] = [[]])
    ∧ (∀ (d : Char) (fs : List Str), fs ≠ [] → (∀ f ∈ fs, d ∉ f) →
        splitOnChar d (joinChar d fs) = fs) :=
  ⟨join_splitOnChar, fun _ => rfl, splitOnChar_joinChar⟩

/-- C6 witness: the amended round trip at a concrete blob and fragment
sequence, with the form-feed delimiter used by the program. -/
theorem C6_witness :
    joinChar (Char.ofNat 12) (splitOnChar (Char.ofNat 12) ['a', Char.ofNat 12, 'b']) =
      ['a', Char.ofNat 12, 'b']
    ∧ splitOnChar (Char.ofNat 12) (joinChar (Char.ofNat 12) [['a'], ['b']]) = [['a'], ['b']] :=
  ⟨C6_theorem.1 (Char.ofNat 12) ['a', Char.ofNat 12, 'b'],
   C6_theorem.2.2 (Char.ofNat 12) [['a'], ['b']] (by decide) (by decide)⟩

/-- C9: reassembling an empty fragment sequence leaves the persisted input
artifact absent (deleted if it existed, never written as an empty file),
while a nonempty sequence is written as the delimiter-joined blob. -/
theorem C9_theorem (d : Char) (prior : Option Str) (e : Str) (es : List Str) :
    save_emails_to_file [] d prior = none
    ∧ save_emails_to_file (e :: es) d prior = some (joinChar d (e :: es)) := by
  constructor
  · rfl
  · simp [save_emails_to_file]

/-! ## Header parser (`inspect_email_text`)

The Python code reads the fragment through a `StringIO`: `readline`
returns the next line including its newline (empty string at EOF),
`readlines` returns all remaining lines.  The header loop rstrips each
line, stops at the first empty result, and matches the known field
prefixes; the dict is pre-initialized with `Subject` and `To` mapped to
the empty string. -/

/-- ASCII whitespace stripped by Python `str.rstrip` / `str.strip`. -/
def isPySpace (c : Char) : Bool :=
  c = ' ' || c = '\t' || c = '\n' || c = '\r' || c = Char.ofNat 11 || c = Char.ofNat 12

/-- Python `line.rstrip()`. -/
def rstrip (l : Str) : Str := (l.reverse.dropWhile isPySpace).reverse

/-- Python `s.strip()`. -/
def pystrip (l : Str) : Str := ((l.dropWhile isPySpace).reverse.dropWhile isPySpace).reverse

/-- `StringIO.readline`: the next line (including its newline if present)
together with the rest of the stream. -/
def readline : Str → Str × Str
  | [] => ([], [])
  | c :: rest =>
    if c = '\n' then ([c], rest)
    else
      let p := readline rest
      (c :: p.1, p.2)

theorem readline_nil : readline [] = ([], []) := rfl

theorem readline_fst_ne_nil (s : Str) (h : s ≠ []) : (readline s).1 ≠ [] := by
  cases s with
  | nil => exact absurd rfl h
  | cons c rest =>
    simp only [readline]
    split
    · simp
    · simp

theorem readline_length (s : Str) :
    (readline s).1.length + (readline s).2.length = s.length := by
  induction s with
  | nil => rfl
  | cons c rest ih =>
    simp only [readline]
    split
    · simp [Nat.add_comm]
    · simp only [List.length_cons]
      omega

theorem readline_snd_lt (s : Str) (h : s ≠ []) : (readline s).2.length < s.length := by
  have h1 := readline_length s
  have h2 : (readline s).1.length ≠ 0 := by
    intro hz
    exact readline_fst_ne_nil s h (List.eq_nil_of_length_eq_zero hz)
  omega

/-- `StringIO.readlines`: all remaining lines, each including its newline
(the final line possibly without one). -/
def readlines : Str → List Str
  | [] => []
  | c :: rest =>
    if c = '\n' then [c] :: readlines rest
    else
      match readlines rest with
      | [] => [[c]]
      | l :: ls => (c :: l) :: ls

/-- Bridge between the stream view and the line view: one `readline` call
yields the head of `readlines` and a stream holding the remaining lines.
This justifies phrasing the header loop below over `readlines text`. -/
theorem readlines_eq_readline_cons (s : Str) (h : s ≠ []) :
    readlines s = (readline s).1 :: readlines (readline s).2 := by
  induction s with
  | nil => exact absurd rfl h
  | cons c rest ih =>
    simp only [readlines, readline]
    by_cases hc : c = '\n'
    · simp [hc]
    · rw [if_neg hc, if_neg hc]
      by_cases hrest : rest = []
      · subst hrest
        simp [readlines, readline]
      · rw [ih hrest]

/-- The structured record built by `inspect_email_text`: one `Option` per
header dict key (in the source it is a Python dict), plus the body lines. -/
structure EmailData where
  From : Option Str
  Subject : Option Str
  Date : Option Str
  To : Option Str
  ReplyTo : Option Str
  Body : List Str
deriving DecidableEq

/-- `data = {"Subject": "", "To": ""}` -/
def initData : EmailData :=
  { From := none, Subject := some [], Date := none, To := some [], ReplyTo := none, Body := [] }

/-- One pass of `for field in required_fields + optional_fields: ...` for a
single (rstripped) header line. -/
def update_fields (line : Str) (d : EmailData) : EmailData :=
  let d := if ("From: ".toList).isPrefixOf line then { d with From := some (line.drop 6) } else d
  let d := if ("Subject: ".toList).isPrefixOf line then
    { d with Subject := some (line.drop 9) } else d
  let d := if ("Date: ".toList).isPrefixOf line then { d with Date := some (line.drop 6) } else d
  let d := if ("To: ".toList).isPrefixOf line then { d with To := some (line.drop 4) } else d
  if ("Reply-To: ".toList).isPrefixOf line then { d with ReplyTo := some (line.drop 10) } else d

/-- The `while True` header loop, phrased over the line view of the
stream (see `readlines_eq_readline_cons`): returns the accumulated
record, the final (rstripped) value of `line`, and the lines remaining
in the stream.  At EOF `readline` returns the empty string, whose rstrip
breaks the loop. -/
def header_scan : List Str → EmailData → EmailData × Str × List Str
  | [], d => (d, [], [])
  | l :: ls, d =>
    let line := rstrip l
    if line = [] then (d, line, ls)
    else header_scan ls (update_fields line d)

/-- `[f for f in required_fields if f not in data]` -/
def missing_fields (d : EmailData) : List Str :=
  (if d.From = none then ["From".toList] else [])
  ++ (if d.Subject = none then ["Subject".toList] else [])
  ++ (if d.Date = none then ["Date".toList] else [])

/-- `inspect_email_text`: `.error` carries the reported missing-field list
(the source prints it and returns `None`); `.ok` carries the record.
After the loop, `if line == "": line = sio.readline().rstrip()` consumes
one more line (dropped), and `data["Body"] = sio.readlines()` captures
the rest. -/
def inspect_email_text (text : Str) : Except (List Str) EmailData :=
  let p := header_scan (readlines text) initData
  let missing := missing_fields p.1
  if missing ≠ [] then .error missing
  else
    let bodyLines := if p.2.1 = [] then p.2.2.drop 1 else p.2.2
    .ok { p.1 with Body := bodyLines }

instance {ε α : Type} [DecidableEq ε] [DecidableEq α] : DecidableEq (Except ε α) := fun a b =>
  match a, b with
  | .error x, .error y =>
    if h : x = y then .isTrue (by rw [h]) else .isFalse (fun he => h (Except.error.inj he))
  | .ok x, .ok y =>
    if h : x = y then .isTrue (by rw [h]) else .isFalse (fun he => h (Except.ok.inj he))
  | .error _, .ok _ => .isFalse (fun he => Except.noConfusion he)
  | .ok _, .error _ => .isFalse (fun he => Except.noConfusion he)

theorem update_fields_subject_isSome (line : Str) (d : EmailData)
    (h : d.Subject.isSome) : (update_fields line d).Subject.isSome := by
  unfold update_fields
  split <;> split <;> split <;> split <;> split <;> simp_all

theorem header_scan_subject_isSome :
    ∀ (ls : List Str) (d : EmailData), d.Subject.isSome →
      (header_scan ls d).1.Subject.isSome := by
  intro ls
  induction ls with
  | nil => intro d h; exact h
  | cons l t ih =>
    intro d h
    simp only [header_scan]
    split
    · exact h
    · exact ih _ (update_fields_subject_isSome _ d h)

/-- `Subject` is pre-populated with the empty string, so it can never be
reported missing: the missing-field list only ever mentions From and Date. -/
theorem missing_fields_cases (d : EmailData) (h : d.Subject.isSome) :
    missing_fields d = []
    ∨ missing_fields d = ["From".toList, "Date".toList]
    ∨ missing_fields d = ["From".toList]
    ∨ missing_fields d = ["Date".toList] := by
  have hs : ¬ d.Subject = none := by
    intro hn
    rw [hn] at h
    simp at h
  unfold missing_fields
  rw [if_neg hs]
  by_cases hf : d.From = none <;> by_cases hd : d.Date = none <;>
    simp [hf, hd]

/-- C3 counterexample: the claim says a fragment containing From and Date
lines but no Subject line is rejected with Subject in the missing list.
The code pre-populates Subject with the empty string, so this fragment is
accepted (with an empty Subject), not rejected. -/
theorem C3_counterexample :
    inspect_email_text ("From: a\nDate: Jan 1\n\nx".toList) =
      .ok { From := some "a".toList, Subject := some [], Date := some "Jan 1".toList,
            To := some [], ReplyTo := none, Body := [] } := by decide

/-- The header section as the loop scans it: the rstripped lines before
the first blank (or whitespace-only) line. -/
def header_lines : List Str → List Str
  | [] => []
  | l :: ls => if rstrip l = [] then [] else rstrip l :: header_lines ls

/-- A `From: ` header line is present in the fragment's header section. -/
def has_from_line (text : Str) : Bool :=
  (header_lines (readlines text)).any (fun l => ("From: ".toList).isPrefixOf l)

/-- A `Date: ` header line is present in the fragment's header section. -/
def has_date_line (text : Str) : Bool :=
  (header_lines (readlines text)).any (fun l => ("Date: ".toList).isPrefixOf l)

theorem update_fields_From (line : Str) (d : EmailData) :
    (update_fields line d).From =
      if ("From: ".toList).isPrefixOf line then some (line.drop 6) else d.From := by
  unfold update_fields
  split_ifs <;> rfl

theorem update_fields_Date (line : Str) (d : EmailData) :
    (update_fields line d).Date =
      if ("Date: ".toList).isPrefixOf line then some (line.drop 6) else d.Date := by
  unfold update_fields
  split_ifs <;> rfl

/-- The scanned record's From field is unset exactly when it started
unset and no scanned header line carries the `From: ` prefix. -/
theorem header_scan_From :
    ∀ (ls : List Str) (d : EmailData),
      (header_scan ls d).1.From = none ↔
        (d.From = none ∧ ∀ l ∈ header_lines ls, ¬ ("From: ".toList).isPrefixOf l) := by
  intro ls
  induction ls with
  | nil =>
    intro d
    simp [header_scan, header_lines]
  | cons l t ih =>
    intro d
    by_cases hb : rstrip l = []
    · simp [header_scan, header_lines, hb]
    · simp only [header_scan, header_lines, if_neg hb]
      rw [ih, update_fields_From, List.forall_mem_cons]
      by_cases hp : ("From: ".toList).isPrefixOf (rstrip l) = true
      · rw [if_pos hp]
        constructor
        · intro h
          exact absurd h.1 (by simp)
        · intro h
          exact absurd hp h.2.1
      · rw [if_neg hp]
        constructor
        · intro h
          exact ⟨h.1, hp, h.2⟩
        · intro h
          exact ⟨h.1, h.2.2⟩

/-- The scanned record's Date field is unset exactly when it started
unset and no scanned header line carries the `Date: ` prefix. -/
theorem header_scan_Date :
    ∀ (ls : List Str) (d : EmailData),
      (header_scan ls d).1.Date = none ↔
        (d.Date = none ∧ ∀ l ∈ header_lines ls, ¬ ("Date: ".toList).isPrefixOf l) := by
  intro ls
  induction ls with
  | nil =>
    intro d
    simp [header_scan, header_lines]
  | cons l t ih =>
    intro d
    by_cases hb : rstrip l = []
    · simp [header_scan, header_lines, hb]
    · simp only [header_scan, header_lines, if_neg hb]
      rw [ih, update_fields_Date, List.forall_mem_cons]
      by_cases hp : ("Date: ".toList).isPrefixOf (rstrip l) = true
      · rw [if_pos hp]
        constructor
        · intro h
          exact absurd h.1 (by simp)
        · intro h
          exact absurd hp h.2.1
      · rw [if_neg hp]
        constructor
        · intro h
          exact ⟨h.1, hp, h.2⟩
        · intro h
          exact ⟨h.1, h.2.2⟩

theorem scan_From_none_iff (text : Str) :
    (header_scan (readlines text) initData).1.From = none ↔ has_from_line text = false := by
  rw [header_scan_From]
  simp [initData, has_from_line, List.any_eq_false]

theorem scan_Date_none_iff (text : Str) :
    (header_scan (readlines text) initData).1.Date = none ↔ has_date_line text = false := by
  rw [header_scan_Date]
  simp [initData, has_date_line, List.any_eq_false]

/-- The missing-field list the parser reports is exactly the absent
fields among From and Date, in that order (Subject, being
pre-populated, never appears). -/
theorem inspect_missing_eq (text : Str) :
    missing_fields (header_scan (readlines text) initData).1 =
      (if has_from_line text then [] else ["From".toList])
      ++ (if has_date_line text then [] else ["Date".toList]) := by
  have hsub : (header_scan (readlines text) initData).1.Subject.isSome :=
    header_scan_subject_isSome (readlines text) initData (by decide)
  have hs : ¬ (header_scan (readlines text) initData).1.Subject = none := by
    intro hn
    rw [hn] at hsub
    exact Bool.noConfusion hsub
  unfold missing_fields
  rw [if_neg hs]
  have hF := scan_From_none_iff text
  have hD := scan_Date_none_iff text
  by_cases hf : has_from_line text <;> by_cases hd : has_date_line text
  · rw [if_pos hf, if_pos hd,
      if_neg (fun h => by rw [hF.mp h] at hf; exact Bool.noConfusion hf),
      if_neg (fun h => by rw [hD.mp h] at hd; exact Bool.noConfusion hd)]
    rfl
  · rw [if_pos hf, if_neg hd,
      if_neg (fun h => by rw [hF.mp h] at hf; exact Bool.noConfusion hf),
      if_pos (hD.mpr (by simpa using hd))]
    rfl
  · rw [if_neg hf, if_pos hd,
      if_pos (hF.mpr (by simpa using hf)),
      if_neg (fun h => by rw [hD.mp h] at hd; exact Bool.noConfusion hd)]
    rfl
  · rw [if_neg hf, if_neg hd,
      if_pos (hF.mpr (by simpa using hf)), if_pos (hD.mpr (by simpa using hd))]
    rfl

/-- C3 (amended): the parser rejects a fragment exactly when a `From: `
or `Date: ` header line is absent from the header section (the rstripped
lines before the first blank line); the reported missing list is exactly
the absent ones among `[From, Date]`, in that order.  Subject is
pre-populated with the empty string and is never reported missing; in
particular `"Subject: hi\n\nbody"` is rejected with missing list exactly
`[From, Date]`, while a fragment with From and Date but no Subject line
is accepted. -/
theorem C3_theorem :
    (∀ text : Str,
      (inspect_email_text text).toOption = none ↔
        (has_from_line text = false ∨ has_date_line text = false))
    ∧ (∀ (text : Str) (l : List Str), inspect_email_text text = .error l →
        l = (if has_from_line text then [] else ["From".toList])
            ++ (if has_date_line text then [] else ["Date".toList]))
    ∧ inspect_email_text ("Subject: hi\n\nbody".toList) = .error ["From".toList, "Date".toList]
    ∧ (inspect_email_text ("From: a\nDate: Jan 1\n\nx".toList)).toOption.isSome = true := by
  refine ⟨?_, ?_, by decide, by decide⟩
  · intro text
    simp only [inspect_email_text]
    by_cases hm : missing_fields (header_scan (readlines text) initData).1 = []
    · rw [if_neg (by simp [hm])]
      rw [inspect_missing_eq] at hm
      constructor
      · intro h
        exact Option.noConfusion h
      · intro h
        exfalso
        rcases h with h | h <;> rw [h] at hm <;>
          revert hm <;> by_cases h2 : has_from_line text <;>
            by_cases h3 : has_date_line text <;> simp [h2, h3]
    · rw [if_pos hm]
      rw [inspect_missing_eq] at hm
      constructor
      · intro _
        by_cases h2 : has_from_line text
        · by_cases h3 : has_date_line text
          · exfalso
            rw [if_pos h2, if_pos h3] at hm
            exact hm rfl
          · exact Or.inr (by simpa using h3)
        · exact Or.inl (by simpa using h2)
      · intro _
        rfl
  · intro text l herr
    simp only [inspect_email_text] at herr
    by_cases hm : missing_fields (header_scan (readlines text) initData).1 = []
    · rw [if_neg (by simp [hm])] at herr
      exact Except.noConfusion herr
    · rw [if_pos hm] at herr
      have hl := Except.error.inj herr
      rw [← hl]
      exact inspect_missing_eq text

/-- C3 witness: the rejection biconditional and the exact missing list
applied at a concrete header-free fragment (no From line, no Date line:
rejected, with both reported in order). -/
theorem C3_witness :
    ((inspect_email_text ("x".toList)).toOption = none ↔
      (has_from_line ("x".toList) = false ∨ has_date_line ("x".toList) = false))
    ∧ inspect_email_text ("x".toList) = .error ["From".toList, "Date".toList]
    ∧ ["From".toList, "Date".toList] =
        (if has_from_line ("x".toList) then [] else ["From".toList])
        ++ (if has_date_line ("x".toList) then [] else ["Date".toList]) :=
  ⟨C3_theorem.1 ("x".toList), by decide,
    C3_theorem.2.1 ("x".toList) ["From".toList, "Date".toList] (by decide)⟩

/-! ## C4: body capture -/

/-- Modelled from the spec (§4.2): everything after the first blank line
is the body, captured as the ordered remaining lines. -/
def drop_through_blank : List Str → List Str
  | [] => []
  | l :: ls => if rstrip l = [] then ls else drop_through_blank ls

/-- Modelled from the spec: the lines following the first blank line of
the fragment. -/
def lines_after_first_blank (text : Str) : List Str :=
  drop_through_blank (readlines text)

theorem header_scan_line_nil :
    ∀ (ls : List Str) (d : EmailData), (header_scan ls d).2.1 = [] := by
  intro ls
  induction ls with
  | nil => intro d; rfl
  | cons l t ih =>
    intro d
    simp only [header_scan]
    split
    · simpa using by assumption
    · exact ih _

theorem header_scan_rest :
    ∀ (ls : List Str) (d : EmailData), (header_scan ls d).2.2 = drop_through_blank ls := by
  intro ls
  induction ls with
  | nil => intro d; rfl
  | cons l t ih =>
    intro d
    simp only [header_scan, drop_through_blank]
    split
    · rfl
    · exact ih _

/-- C4 counterexample: the claim says the Body of an accepted fragment is
the ordered sequence of ALL lines after the first blank line.  The code
always consumes and discards one extra line after the blank separator
(`line = sio.readline().rstrip()` runs unconditionally because the header
loop only exits with `line == ""`), so the first body line is dropped. -/
theorem C4_counterexample :
    inspect_email_text ("From: a\nSubject: s\nDate: d\n\nbody1\nbody2\n".toList) =
      .ok { From := some "a".toList, Subject := some "s".toList, Date := some "d".toList,
            To := some [], ReplyTo := none, Body := ["body2\n".toList] }
    ∧ lines_after_first_blank ("From: a\nSubject: s\nDate: d\n\nbody1\nbody2\n".toList) =
        ["body1\n".toList, "body2\n".toList]
    ∧ (["body2\n".toList] : List Str) ≠ ["body1\n".toList, "body2\n".toList] := by
  refine ⟨by decide, by decide, by decide⟩

/-- C4 (amended): for every fragment accepted by the parser, Body equals
the lines after the first blank line with the first of them removed (the
line immediately following the blank separator is consumed and dropped);
the remaining lines are kept in order and verbatim. -/
theorem C4_theorem (text : Str) (d : EmailData)
    (hok : inspect_email_text text = .ok d) :
    d.Body = (lines_after_first_blank text).drop 1 := by
  simp only [inspect_email_text] at hok
  split at hok
  · exact Except.noConfusion hok
  · have h1 := header_scan_line_nil (readlines text) initData
    rw [if_pos h1] at hok
    have h2 := header_scan_rest (readlines text) initData
    have := Except.ok.inj hok
    rw [← this]
    simp [lines_after_first_blank, ← h2]

/-- C4 witness: the amended body-capture equation at a concrete accepted
fragment. -/
theorem C4_witness :
    ({ From := some "a".toList, Subject := some "s".toList, Date := some "d".toList,
       To := some [], ReplyTo := none, Body := ["body2\n".toList] } : EmailData).Body =
      (lines_after_first_blank
        ("From: a\nSubject: s\nDate: d\n\nbody1\nbody2\n".toList)).drop 1 :=
  C4_theorem ("From: a\nSubject: s\nDate: d\n\nbody1\nbody2\n".toList) _ (by decide)

/-! ## Date normalizer (`datetime_from_string`)

`pd.to_datetime` is an external library call; it is modelled as a
parameter `parse : Str → Option Int` mapping a date string to an epoch
timestamp in seconds (`none` = the library raises `ValueError`).
`pd.Timedelta(1, unit="d")` on tz-naive timestamps is exactly 86400
seconds.  Everything textual (timezone stripping, the `at 24:` rewrite)
is embedded directly. -/

/-- Python `s.replace(pat, rep)` (all non-overlapping occurrences, left to
right), with fuel equal to the string length; one character is consumed
per step, so the fuel never runs out.  The patterns used by the program
are nonempty literals. -/
def replace_sub_aux (pat rep : Str) : Nat → Str → Str
  | 0, s => s
  | fuel + 1, s =>
    match s with
    | [] => []
    | c :: rest =>
      match pat with
      | [] => c :: rest
      | _ :: ps =>
        if pat.isPrefixOf (c :: rest) then
          rep ++ replace_sub_aux pat rep fuel (rest.drop ps.length)
        else c :: replace_sub_aux pat rep fuel rest

def replace_sub (s pat rep : Str) : Str := replace_sub_aux pat rep s.length s

/-- The fixed closed set of timezone abbreviations, in source order. -/
def tz_abbrevs : List Str :=
  ["PST".toList, "PDT".toList, "MST".toList, "MDT".toList, "CST".toList,
   "CDT".toList, "EST".toList, "EDT".toList, "GMT".toList, "UTC".toList]

/-- One iteration of the stripping loop:
`cleaned = cleaned.replace(" " + tz, "").replace(tz, "")`. -/
def strip_tz_once (acc : Str) (tz : Str) : Str :=
  replace_sub (replace_sub acc (' ' :: tz) []) tz []

/-- The `cleaned` string: every timezone abbreviation stripped (with or
without a leading space), then `.strip()`. -/
def datetime_cleaned (datestring : Str) : Str :=
  pystrip (tz_abbrevs.foldl strip_tz_once datestring)

/-- `datetime_from_string`: try the general parse of the cleaned string;
on failure rewrite `at 24:` to `at 00:`, reparse and add one day. -/
def datetime_from_string (parse : Str → Option Int) (datestring : Str) : Option Int :=
  let cleaned := datetime_cleaned datestring
  match parse cleaned with
  | some dt => some dt
  | none =>
      (parse (replace_sub cleaned ("at 24:".toList) ("at 00:".toList))).map
        (fun dt => dt + 86400)

/-- Days since the Unix epoch of a proleptic-Gregorian civil date
(Hinnant's days-from-civil algorithm). -/
def daysFromCivil (y m d : Int) : Int :=
  let y2 := if m ≤ 2 then y - 1 else y
  let era := (if 0 ≤ y2 then y2 else y2 - 399) / 400
  let yoe := y2 - era * 400
  let mp := (m + 9) % 12
  let doy := (153 * mp + 2) / 5 + d - 1
  let doe := yoe * 365 + yoe / 4 - yoe / 100 + doy
  era * 146097 + doe - 719468

/-- Epoch timestamp (seconds) of a tz-naive civil calendar instant. -/
def civilTs (y m d h mi s : Int) : Int :=
  daysFromCivil y m d * 86400 + h * 3600 + mi * 60 + s

/-- C8: the timezone-stripped form of `"July 18, 2008 at 24:48:37 PDT"`
is `"July 18, 2008 at 24:48:37"`; if the general parse rejects it but
parses the `at 00:` rewrite to July 18, 2008, 00:48:37, the normalizer
yields the calendar instant July 19, 2008, 00:48:37.  In general,
whenever the initial parse of the cleaned string fails, the result is
the parse of the `at 24:`→`at 00:` rewrite plus exactly one day. -/
theorem C8_theorem (parse : Str → Option Int)
    (h1 : parse ("July 18, 2008 at 24:48:37".toList) = none)
    (h2 : parse ("July 18, 2008 at 00:48:37".toList) = some (civilTs 2008 7 18 0 48 37)) :
    datetime_cleaned ("July 18, 2008 at 24:48:37 PDT".toList) =
      "July 18, 2008 at 24:48:37".toList
    ∧ datetime_from_string parse ("July 18, 2008 at 24:48:37 PDT".toList) =
        some (civilTs 2008 7 19 0 48 37)
    ∧ ∀ ds : Str, parse (datetime_cleaned ds) = none →
        datetime_from_string parse ds =
          (parse (replace_sub (datetime_cleaned ds) ("at 24:".toList) ("at 00:".toList))).map
            (fun dt => dt + 86400) := by
  have hclean : datetime_cleaned ("July 18, 2008 at 24:48:37 PDT".toList) =
      "July 18, 2008 at 24:48:37".toList := by decide
  have hrw : replace_sub ("July 18, 2008 at 24:48:37".toList)
      ("at 24:".toList) ("at 00:".toList) = "July 18, 2008 at 00:48:37".toList := by decide
  have hday : civilTs 2008 7 18 0 48 37 + 86400 = civilTs 2008 7 19 0 48 37 := by decide
  refine ⟨hclean, ?_, ?_⟩
  · simp only [datetime_from_string, hclean, h1, hrw, h2, Option.map_some']
    rw [hday]
  · intro ds h
    simp only [datetime_from_string, h]

/-- A stand-in for `pd.to_datetime` that accepts exactly the repaired
date string, used to exercise `C8_theorem` concretely. -/
def parse_stub (s : Str) : Option Int :=
  if s = "July 18, 2008 at 00:48:37".toList then some (civilTs 2008 7 18 0 48 37) else none

/-- C8 witness: the 24-hour repair at the concrete documented input. -/
theorem C8_witness :
    datetime_from_string parse_stub ("July 18, 2008 at 24:48:37 PDT".toList) =
      some (civilTs 2008 7 19 0 48 37) :=
  (C8_theorem parse_stub (by decide) (by decide)).2.1

/-! ## Chronological sorter (`get_email_datetime`, `sort_emails_by_date`)

Python `list.sort` is a stable ascending sort; any stable sort computes
the same list, so it is embedded as `List.insertionSort` (stable) on
`(timestamp, email)` pairs ordered by timestamp, exactly the
`key=lambda x: x[0]` of the source. -/

/-- The quick `Date:` scan of `get_email_datetime`: rstrip each line,
stop at the first blank line, return the normalizer's result on the
first `Date: ` line (`none` models the caught parse exception). -/
def scan_for_date (norm : Str → Option Int) : List Str → Option Int
  | [] => none
  | l :: ls =>
    let line := rstrip l
    if line = [] then none
    else if ("Date: ".toList).isPrefixOf line then norm (line.drop 6)
    else scan_for_date norm ls

/-- `get_email_datetime`: scan `email_text.split("\n")` for the Date
header and normalize it with `datetime_from_string` (under the ambient
library parse function). -/
def get_email_datetime (parse : Str → Option Int) (email_text : Str) : Option Int :=
  scan_for_date (datetime_from_string parse) (splitOnChar '\n' email_text)

/-- The dated partition, as `(timestamp, email)` pairs in input order. -/
def dated_pairs (parse : Str → Option Int) (emails : List Str) : List (Int × Str) :=
  emails.filterMap (fun e => (get_email_datetime parse e).map (fun dt => (dt, e)))

/-- The timestamp order used by `dated_emails.sort(key=lambda x: x[0])`. -/
def byDate (a b : Int × Str) : Prop := a.1 ≤ b.1

instance : DecidableRel byDate := fun a b => Int.decLe a.1 b.1

instance : IsTotal (Int × Str) byDate := ⟨fun a b => Int.le_total a.1 b.1⟩

instance : IsTrans (Int × Str) byDate := ⟨fun _ _ _ h1 h2 => le_trans h1 h2⟩

/-- `sort_emails_by_date`: partition into dated/undated in one pass, sort
the dated pairs stably by timestamp, return sorted dated emails followed
by the undated ones in their original order. -/
def sort_emails_by_date (parse : Str → Option Int) (emails : List Str) : List Str :=
  let dated := dated_pairs parse emails
  let undated := emails.filter (fun e => get_email_datetime parse e = none)
  (dated.insertionSort byDate).map Prod.snd ++ undated

theorem mem_dated_pairs (parse : Str → Option Int) (emails : List Str)
    (p : Int × Str) (hp : p ∈ dated_pairs parse emails) :
    get_email_datetime parse p.2 = some p.1 := by
  rcases List.mem_filterMap.mp hp with ⟨e, _, hfe⟩
  cases h : get_email_datetime parse e with
  | none => rw [h] at hfe; exact Option.noConfusion hfe
  | some dt =>
    rw [h] at hfe
    have : (dt, e) = p := Option.some.inj hfe
    rw [← this]
    exact h

theorem dated_pairs_map_snd (parse : Str → Option Int) (emails : List Str) :
    (dated_pairs parse emails).map Prod.snd =
      emails.filter (fun e => (get_email_datetime parse e).isSome) := by
  induction emails with
  | nil => rfl
  | cons e es ih =>
    simp only [dated_pairs, List.filterMap_cons, List.filter_cons] at ih ⊢
    cases h : get_email_datetime parse e <;> simp [h, ih]

theorem dated_pairs_filter_map_snd (parse : Str → Option Int) (emails : List Str) (t : Int) :
    ((dated_pairs parse emails).filter (fun p => p.1 = t)).map Prod.snd =
      emails.filter (fun e => get_email_datetime parse e = some t) := by
  induction emails with
  | nil => rfl
  | cons e es ih =>
    simp only [dated_pairs, List.filterMap_cons, List.filter_cons] at ih ⊢
    cases h : get_email_datetime parse e with
    | none => simp [h, ih]
    | some dt =>
      by_cases hdt : dt = t
      · subst hdt
        simp [h, ih]
      · simp [h, ih, hdt, Option.some_inj]

/-- Insertion into a list keeps the sequence of `t`-keyed entries intact,
up to prepending the inserted pair when its own key is `t` (it is placed
before every later equal-keyed pair: the skipped prefix has strictly
smaller keys). -/
theorem filter_orderedInsert_key (t : Int) (a : Int × Str) :
    ∀ s : List (Int × Str),
      (s.orderedInsert byDate a).filter (fun p => p.1 = t) =
        if a.1 = t then a :: s.filter (fun p => p.1 = t)
        else s.filter (fun p => p.1 = t) := by
  intro s
  induction s with
  | nil =>
    simp only [List.orderedInsert, List.filter_cons, List.filter_nil]
    by_cases h : a.1 = t <;> simp [h]
  | cons b bs ih =>
    simp only [List.orderedInsert]
    by_cases hle : byDate a b
    · rw [if_pos hle]
      by_cases h : a.1 = t <;> simp [List.filter_cons, h]
    · rw [if_neg hle]
      have hblt : b.1 < a.1 := lt_of_not_le hle
      by_cases ha : a.1 = t <;> by_cases hb : b.1 = t
      · exfalso
        rw [ha] at hblt
        rw [hb] at hblt
        exact lt_irrefl t hblt
      all_goals simp [List.filter_cons, ha, hb, ih]

/-- Stability of the embedded sort: for each timestamp `t`, the `t`-keyed
pairs appear in the sorted output exactly as in the input. -/
theorem filter_insertionSort_key (t : Int) :
    ∀ l : List (Int × Str),
      (l.insertionSort byDate).filter (fun p => p.1 = t) =
        l.filter (fun p => p.1 = t) := by
  intro l
  induction l with
  | nil => rfl
  | cons a l ih =>
    simp only [List.insertionSort]
    rw [filter_orderedInsert_key t a (l.insertionSort byDate), ih]
    by_cases h : a.1 = t <;> simp [List.filter_cons, h]

theorem decide_eq_none_eq_not_isSome (x : Option Int) :
    (decide (x = none)) = !x.isSome := by
  cases x <;> rfl

/-- A stand-in library parse for the concrete sorting example. -/
def parse_stub7 (s : Str) : Option Int :=
  if s = "2020 03 01".toList then some 20200301
  else if s = "2019 01 01".toList then some 20190101
  else none

/-- The output of `sort_emails_by_date` is a permutation of its input. -/
theorem sort_emails_by_date_perm (parse : Str → Option Int) (emails : List Str) :
    (sort_emails_by_date parse emails).Perm emails := by
  unfold sort_emails_by_date
  have h1 : ((dated_pairs parse emails).insertionSort byDate).map Prod.snd |>.Perm
      ((dated_pairs parse emails).map Prod.snd) :=
    (List.perm_insertionSort byDate (dated_pairs parse emails)).map Prod.snd
  refine ((h1.append_right _).trans ?_)
  rw [dated_pairs_map_snd]
  have h2 : emails.filter (fun e => get_email_datetime parse e = none) =
      emails.filter (fun e => !(get_email_datetime parse e).isSome) := by
    apply List.filter_congr
    intro e _
    exact decide_eq_none_eq_not_isSome _
  rw [h2]
  exact List.filter_append_perm _ emails

/-- C7: for every normalizer and input sequence, the sorter returns a
permutation of the input: the fragments with a normalizable date sorted
ascending by timestamp (stably: for each timestamp the tied fragments
keep their original relative order), followed by the undated fragments
in their original relative order.  Concretely, inputs dated
[2020-03-01, missing, 2019-01-01] come out as
[2019-01-01, 2020-03-01, missing]. -/
theorem C7_theorem :
    (∀ (parse : Str → Option Int) (emails : List Str),
      (sort_emails_by_date parse emails).Perm emails
      ∧ ∃ ps : List (Int × Str),
          sort_emails_by_date parse emails =
            ps.map Prod.snd ++ emails.filter (fun e => get_email_datetime parse e = none)
          ∧ (∀ p ∈ ps, get_email_datetime parse p.2 = some p.1)
          ∧ ps.Pairwise byDate
          ∧ (∀ t : Int, (ps.filter (fun p => p.1 = t)).map Prod.snd =
              emails.filter (fun e => get_email_datetime parse e = some t)))
    ∧ sort_emails_by_date parse_stub7
        ["Date: 2020 03 01\n\nx".toList, "x".toList, "Date: 2019 01 01\n\ny".toList] =
      ["Date: 2019 01 01\n\ny".toList, "Date: 2020 03 01\n\nx".toList, "x".toList] := by
  constructor
  · intro parse emails
    refine ⟨sort_emails_by_date_perm parse emails, ?_⟩
    refine ⟨(dated_pairs parse emails).insertionSort byDate, rfl, ?_, ?_, ?_⟩
    · intro p hp
      exact mem_dated_pairs parse emails p ((List.mem_insertionSort byDate).mp hp)
    · exact List.sorted_insertionSort byDate (dated_pairs parse emails)
    · intro t
      rw [filter_insertionSort_key t (dated_pairs parse emails)]
      exact dated_pairs_filter_map_snd parse emails t
  · decide

/-! ## Collision-safe writer (`save_email_to_text_file`)

The destination directory is modelled as an association list from
filename to file; a file carries its content and a readability flag
(`readable = false` models `PermissionError` in `safe_read_file`).
`os.makedirs` is modelled by the directory state existing.  The writer
returns the outcome (or the raised `ValueError`, named
`ExhaustedSuffixes` as in the spec) together with the directory state. -/

structure FileInfo where
  content : Str
  readable : Bool
deriving DecidableEq

abbrev Dir := List (Str × FileInfo)

def emptyDir : Dir := []

/-- `os.path.isfile(path)` / the file stored at a path. -/
def lookupFile : Dir → Str → Option FileInfo
  | [], _ => none
  | (f, i) :: rest, g => if f = g then some i else lookupFile rest g

/-- `open(path, "w"); f.write(content)` at a fresh path. -/
def writeFile (d : Dir) (f c : Str) : Dir := (f, { content := c, readable := true }) :: d

/-- `safe_read_file`: the contents (decode errors substituted, so always
some string), or `None` on `PermissionError`. -/
def safe_read_file (d : Dir) (f : Str) : Option Str :=
  match lookupFile d f with
  | some i => if i.readable then some i.content else none
  | none => none

/-- `'{name} {date_string} email.txt'` -/
def base_filename (name date_string : Str) : Str :=
  name ++ [' '] ++ date_string ++ " email.txt".toList

/-- `'{name} {date_string}{suffix} email.txt'` -/
def make_suffixed_filename (name date_string suffix : Str) : Str :=
  name ++ [' '] ++ date_string ++ suffix ++ " email.txt".toList

/-- `next_suffix`: b, c, ..., z, aa, ab, ..., az, ba, ..., zz, then
exhaustion.  (The source indexes `suffix[0]`/`suffix[1]` in the
multi-letter branch; it is never called on the empty string.) -/
def next_suffix : Str → Option Str
  | [c] => if c = 'z' then some ['a', 'a'] else some [Char.ofNat (c.toNat + 1)]
  | c1 :: c2 :: _ =>
    if c2 = 'z' then
      if c1 = 'z' then none
      else some [Char.ofNat (c1.toNat + 1), 'a']
    else some [c1, Char.ofNat (c2.toNat + 1)]
  | [] => none

/-- The chain of suffixes obtained by iterating `next_suffix`, with
enough fuel to reach exhaustion. -/
def suffix_chain (s : Str) : Nat → List Str
  | 0 => []
  | fuel + 1 =>
    s :: (match next_suffix s with
      | none => []
      | some t => suffix_chain t fuel)

/-- Every suffix the `while suffix is not None` loop can try, in order,
starting from `"b"`. -/
def suffix_list : List Str := suffix_chain ['b'] 1000

/-- Completeness of `suffix_list` as the loop's iteration sequence: it
starts at `"b"`, each element steps to the next via `next_suffix`, and
the last element exhausts the generator. -/
def chainNextB : List Str → Bool
  | [] => true
  | [s] => decide (next_suffix s = none)
  | a :: b :: rest => decide (next_suffix a = some b) && chainNextB (b :: rest)

theorem suffix_list_is_next_suffix_chain :
    suffix_list.head? = some ['b'] ∧ chainNextB suffix_list = true := by decide

/-- Modelled from the spec (§3): the literal expected disambiguator
sequence b..z then aa..zz. -/
def spec_suffix_sequence : List Str :=
  (List.range 25).map (fun i => [Char.ofNat (98 + i)]) ++
    (List.range 26).flatMap (fun i =>
      (List.range 26).map (fun j => [Char.ofNat (97 + i), Char.ofNat (97 + j)]))

/-- Strict lexicographic order on the character codes. -/
def lexLtB : Str → Str → Bool
  | [], [] => false
  | [], _ :: _ => true
  | _ :: _, [] => false
  | a :: as, b :: bs =>
    decide (a.toNat < b.toNat) || (decide (a.toNat = b.toNat) && lexLtB as bs)

/-- The shortlex order in which the suffix sequence is strictly
increasing: shorter strings first, ties broken lexicographically. -/
def shortlexLtB (a b : Str) : Bool :=
  decide (a.length < b.length) || (decide (a.length = b.length) && lexLtB a b)

def chainIncrB : List Str → Bool
  | [] => true
  | [_] => true
  | a :: b :: rest => shortlexLtB a b && chainIncrB (b :: rest)

/-- C5 counterexample: the claim says the generator yields 702 values
after the empty slot, 26 of them single-letter.  It yields 701 (25
single-letter + 676 two-letter); 702 is the number of slots INCLUDING
the empty base slot. -/
theorem C5_counterexample :
    suffix_list.length = 701
    ∧ ¬ suffix_list.length = 702
    ∧ (suffix_list.filter (fun s => decide (s.length = 1))).length = 25
    ∧ ¬ (suffix_list.filter (fun s => decide (s.length = 1))).length = 26 := by
  refine ⟨by decide, by decide, by decide, by decide⟩

/-- C5 (amended): the disambiguator sequence from the empty slot is
exactly the empty string, then b, c, ..., z, aa, ..., zz; it is strictly
increasing in shortlex order; there are 701 values after the empty slot
(25 single-letter + 676 two-letter; 702 slots in total counting the
base), and past the last value the generator signals exhaustion. -/
theorem C5_theorem :
    suffix_list = spec_suffix_sequence
    ∧ suffix_list.length = 701
    ∧ chainIncrB ([] :: suffix_list) = true
    ∧ suffix_list.getLast? = some ['z', 'z']
    ∧ next_suffix ['z', 'z'] = none := by
  refine ⟨by decide, by decide, by decide, by decide, by decide⟩

inductive Outcome where
  | Written (filename : Str)
  | AlreadyPresent (filename : Str)
deriving DecidableEq

inductive WriteError where
  | ExhaustedSuffixes
deriving DecidableEq

/-- The `while suffix is not None` loop, phrased over the list of
candidate suffixes the iteration of `next_suffix` from `"b"` runs
through (`suffix_list`; see `suffix_list_is_next_suffix_chain`): for
each candidate, write to an absent path, report an identical readable
file as already present, otherwise (different content, or permission
denied) advance; an empty candidate list is the exhaustion `ValueError`. -/
def write_loop (name date_string content : Str) :
    Dir → List Str → Except WriteError Outcome × Dir
  | d, [] => (.error .ExhaustedSuffixes, d)
  | d, s :: rest =>
    let fname := make_suffixed_filename name date_string s
    match lookupFile d fname with
    | none => (.ok (.Written fname), writeFile d fname content)
    | some _ =>
      match safe_read_file d fname with
      | some c =>
        if c = content then (.ok (.AlreadyPresent fname), d)
        else write_loop name date_string content d rest
      | none => write_loop name date_string content d rest

/-- `save_email_to_text_file(filepath, name, date_string, email_content)`
with the directory at `filepath` passed (and returned) explicitly. -/
def save_email_to_text_file (name date_string email_content : Str) (d : Dir) :
    Except WriteError Outcome × Dir :=
  let full_path := base_filename name date_string
  match lookupFile d full_path with
  | none => (.ok (.Written full_path), writeFile d full_path email_content)
  | some _ =>
    match safe_read_file d full_path with
    | some c =>
      if c = email_content then (.ok (.AlreadyPresent full_path), d)
      else write_loop name date_string email_content d suffix_list
    | none => write_loop name date_string email_content d suffix_list

theorem lookupFile_writeFile_self (d : Dir) (f c : Str) :
    lookupFile (writeFile d f c) f = some { content := c, readable := true } := by
  simp [writeFile, lookupFile]

theorem lookupFile_writeFile_ne (d : Dir) (f c g : Str) (h : f ≠ g) :
    lookupFile (writeFile d f c) g = lookupFile d g := by
  simp [writeFile, lookupFile, h]

theorem safe_read_writeFile_self (d : Dir) (f c : Str) :
    safe_read_file (writeFile d f c) f = some c := by
  simp [safe_read_file, lookupFile_writeFile_self]

theorem safe_read_writeFile_ne (d : Dir) (f c g : Str) (h : f ≠ g) :
    safe_read_file (writeFile d f c) g = safe_read_file d g := by
  simp [safe_read_file, lookupFile_writeFile_ne d f c g h]

/-- After the loop writes `content` at a fresh path, re-running the loop
on the resulting directory reports that same path as already present and
leaves the directory untouched. -/
theorem write_loop_written (n dt c : Str) :
    ∀ (ss : List Str) (d : Dir) (f : Str) (d' : Dir),
      write_loop n dt c d ss = (.ok (.Written f), d') →
      lookupFile d f = none ∧ d' = writeFile d f c
      ∧ write_loop n dt c d' ss = (.ok (.AlreadyPresent f), d') := by
  intro ss
  induction ss with
  | nil =>
    intro d f d' h
    simp only [write_loop] at h
    injection h with h1 _
    exact Except.noConfusion h1
  | cons s rest ih =>
    intro d f d' h
    simp only [write_loop] at h ⊢
    cases hl : lookupFile d (make_suffixed_filename n dt s) with
    | none =>
      simp only [hl] at h
      injection h with h1 h2
      have hf : make_suffixed_filename n dt s = f := Outcome.Written.inj (Except.ok.inj h1)
      subst h2
      subst hf
      refine ⟨hl, rfl, ?_⟩
      simp [lookupFile_writeFile_self, safe_read_writeFile_self]
    | some i =>
      simp only [hl] at h
      cases hr : safe_read_file d (make_suffixed_filename n dt s) with
      | some c0 =>
        simp only [hr] at h
        by_cases hc : c0 = c
        · simp only [if_pos hc] at h
          injection h with h1 _
          exact Outcome.noConfusion (Except.ok.inj h1)
        · simp only [if_neg hc] at h
          obtain ⟨h1, h2, h3⟩ := ih d f d' h
          refine ⟨h1, h2, ?_⟩
          have hne : make_suffixed_filename n dt s ≠ f := by
            intro he
            rw [he, h1] at hl
            exact Option.noConfusion hl
          rw [h2] at h3 ⊢
          simp only [lookupFile_writeFile_ne d f c _ (fun he => hne he.symm), hl,
            safe_read_writeFile_ne d f c _ (fun he => hne he.symm), hr, if_neg hc]
          exact h3
      | none =>
        simp only [hr] at h
        obtain ⟨h1, h2, h3⟩ := ih d f d' h
        refine ⟨h1, h2, ?_⟩
        have hne : make_suffixed_filename n dt s ≠ f := by
          intro he
          rw [he, h1] at hl
          exact Option.noConfusion hl
        rw [h2] at h3 ⊢
        simp only [lookupFile_writeFile_ne d f c _ (fun he => hne he.symm), hl,
          safe_read_writeFile_ne d f c _ (fun he => hne he.symm), hr]
        exact h3

/-- Idempotence core (holds for EVERY directory state): after a call
returns `Written f`, an identical call on the new state returns
`AlreadyPresent f` and changes nothing. -/
theorem save_written_then_already (n dt c : Str) (d : Dir) (f : Str) (d' : Dir)
    (h : save_email_to_text_file n dt c d = (.ok (.Written f), d')) :
    lookupFile d f = none ∧ d' = writeFile d f c
    ∧ save_email_to_text_file n dt c d' = (.ok (.AlreadyPresent f), d') := by
  simp only [save_email_to_text_file] at h ⊢
  cases hb : lookupFile d (base_filename n dt) with
  | none =>
    simp only [hb] at h
    injection h with h1 h2
    have hf : base_filename n dt = f := Outcome.Written.inj (Except.ok.inj h1)
    subst h2
    subst hf
    refine ⟨hb, rfl, ?_⟩
    simp [lookupFile_writeFile_self, safe_read_writeFile_self]
  | some i =>
    simp only [hb] at h
    cases hr : safe_read_file d (base_filename n dt) with
    | some c0 =>
      simp only [hr] at h
      by_cases hc : c0 = c
      · simp only [if_pos hc] at h
        injection h with h1 _
        exact Outcome.noConfusion (Except.ok.inj h1)
      · simp only [if_neg hc] at h
        obtain ⟨h1, h2, h3⟩ := write_loop_written n dt c suffix_list d f d' h
        refine ⟨h1, h2, ?_⟩
        have hne : base_filename n dt ≠ f := by
          intro he
          rw [he, h1] at hb
          exact Option.noConfusion hb
        rw [h2] at h3 ⊢
        simp only [lookupFile_writeFile_ne d f c _ (fun he => hne he.symm), hb,
          safe_read_writeFile_ne d f c _ (fun he => hne he.symm), hr, if_neg hc]
        exact h3
    | none =>
      simp only [hr] at h
      obtain ⟨h1, h2, h3⟩ := write_loop_written n dt c suffix_list d f d' h
      refine ⟨h1, h2, ?_⟩
      have hne : base_filename n dt ≠ f := by
        intro he
        rw [he, h1] at hb
        exact Option.noConfusion hb
      rw [h2] at h3 ⊢
      simp only [lookupFile_writeFile_ne d f c _ (fun he => hne he.symm), hb,
        safe_read_writeFile_ne d f c _ (fun he => hne he.symm), hr]
      exact h3

/-- The loop either leaves the directory untouched (already present, or
exhaustion) or creates exactly one new file at a previously absent path. -/
theorem write_loop_frame (n dt c : Str) :
    ∀ (ss : List Str) (d : Dir),
      (write_loop n dt c d ss).2 = d
      ∨ ∃ f, (write_loop n dt c d ss).1 = .ok (.Written f)
          ∧ lookupFile d f = none
          ∧ (write_loop n dt c d ss).2 = writeFile d f c := by
  intro ss
  induction ss with
  | nil => intro d; left; rfl
  | cons s rest ih =>
    intro d
    cases hl : lookupFile d (make_suffixed_filename n dt s) with
    | none =>
      right
      exact ⟨make_suffixed_filename n dt s, by simp only [write_loop, hl], hl,
        by simp only [write_loop, hl]⟩
    | some i =>
      cases hr : safe_read_file d (make_suffixed_filename n dt s) with
      | some c0 =>
        by_cases hc : c0 = c
        · left
          simp only [write_loop, hl, hr, if_pos hc]
        · have h := ih d
          simpa only [write_loop, hl, hr, if_neg hc] using h
      | none =>
        have h := ih d
        simpa only [write_loop, hl, hr] using h

theorem save_frame (n dt c : Str) (d : Dir) :
    (save_email_to_text_file n dt c d).2 = d
    ∨ ∃ f, (save_email_to_text_file n dt c d).1 = .ok (.Written f)
        ∧ lookupFile d f = none
        ∧ (save_email_to_text_file n dt c d).2 = writeFile d f c := by
  cases hb : lookupFile d (base_filename n dt) with
  | none =>
    right
    exact ⟨base_filename n dt, by simp only [save_email_to_text_file, hb], hb,
      by simp only [save_email_to_text_file, hb]⟩
  | some i =>
    cases hr : safe_read_file d (base_filename n dt) with
    | some c0 =>
      by_cases hc : c0 = c
      · left
        simp only [save_email_to_text_file, hb, hr, if_pos hc]
      · have h := write_loop_frame n dt c suffix_list d
        simpa only [save_email_to_text_file, hb, hr, if_neg hc] using h
    | none =>
      have h := write_loop_frame n dt c suffix_list d
      simpa only [save_email_to_text_file, hb, hr] using h

/-- C10: every call to the writer preserves every pre-existing file (its
content and readability are unchanged on every outcome, including
exhaustion and permission-denied reads), and it creates at most one new
file, only at a path where no file previously existed, reported as
`Written`. -/
theorem C10_theorem (n dt c : Str) (d : Dir) :
    (∀ (g : Str) (i : FileInfo), lookupFile d g = some i →
        lookupFile (save_email_to_text_file n dt c d).2 g = some i)
    ∧ ((save_email_to_text_file n dt c d).2 = d
        ∨ ∃ f, (save_email_to_text_file n dt c d).1 = .ok (.Written f)
            ∧ lookupFile d f = none
            ∧ (save_email_to_text_file n dt c d).2 = writeFile d f c) := by
  refine ⟨?_, save_frame n dt c d⟩
  intro g i hg
  rcases save_frame n dt c d with h | ⟨f, _, hf, h2⟩
  · rw [h]
    exact hg
  · rw [h2, lookupFile_writeFile_ne d f c g ?hne]
    · exact hg
    · intro he
      rw [he, hg] at hf
      exact Option.noConfusion hf

/-! ### The filename family of a `(name, date_string)` pair

Slot 0 is the base filename, slot `i + 1` is the `i`-th suffixed
filename.  The 702 slot names are pairwise distinct, so a directory
filled by the writer can be described by the list of slot contents. -/

def family_filenames (n dt : Str) : List Str :=
  base_filename n dt :: suffix_list.map (make_suffixed_filename n dt)

theorem make_suffixed_filename_inj (n dt : Str) :
    Function.Injective (make_suffixed_filename n dt) := by
  intro s1 s2 h
  unfold make_suffixed_filename at h
  have h1 := List.append_cancel_right h
  exact List.append_cancel_left h1

theorem lexLtB_trans : ∀ a b c : Str, lexLtB a b = true → lexLtB b c = true →
    lexLtB a c = true := by
  intro a
  induction a with
  | nil =>
    intro b c hab hbc
    cases b with
    | nil => exact absurd hab (by simp [lexLtB])
    | cons bh bt =>
      cases c with
      | nil => exact absurd hbc (by simp [lexLtB])
      | cons ch ct => simp [lexLtB]
  | cons ah tl iha =>
    intro b c hab hbc
    cases b with
    | nil => exact absurd hab (by simp [lexLtB])
    | cons bh bt =>
      cases c with
      | nil => exact absurd hbc (by simp [lexLtB])
      | cons ch ct =>
        simp only [lexLtB, Bool.or_eq_true, Bool.and_eq_true, decide_eq_true_eq] at hab hbc ⊢
        rcases hab with h1 | ⟨h1, h2⟩ <;> rcases hbc with h3 | ⟨h3, h4⟩
        · exact Or.inl (by omega)
        · exact Or.inl (by omega)
        · exact Or.inl (by omega)
        · exact Or.inr ⟨by omega, iha bt ct h2 h4⟩

theorem lexLtB_irrefl : ∀ a : Str, lexLtB a a = false := by
  intro a
  induction a with
  | nil => rfl
  | cons h t ih => simp [lexLtB, ih]

theorem shortlexLtB_trans (a b c : Str) (h1 : shortlexLtB a b = true)
    (h2 : shortlexLtB b c = true) : shortlexLtB a c = true := by
  simp only [shortlexLtB, Bool.or_eq_true, Bool.and_eq_true, decide_eq_true_eq] at h1 h2 ⊢
  rcases h1 with h1 | ⟨h1, h1l⟩ <;> rcases h2 with h2 | ⟨h2, h2l⟩
  · exact Or.inl (by omega)
  · exact Or.inl (by omega)
  · exact Or.inl (by omega)
  · exact Or.inr ⟨by omega, lexLtB_trans a b c h1l h2l⟩

theorem shortlexLtB_ne (a b : Str) (h : shortlexLtB a b = true) : a ≠ b := by
  intro he
  subst he
  simp [shortlexLtB, lexLtB_irrefl] at h

theorem chainIncrB_pairwise : ∀ l : List Str, chainIncrB l = true →
    l.Pairwise (fun a b => shortlexLtB a b = true) := by
  intro l
  induction l with
  | nil => intro _; exact List.Pairwise.nil
  | cons a t ih =>
    intro h
    cases t with
    | nil => exact List.pairwise_singleton _ a
    | cons b rest =>
      simp only [chainIncrB, Bool.and_eq_true] at h
      have hp := ih h.2
      refine List.Pairwise.cons ?_ hp
      intro x hx
      rcases List.mem_cons.mp hx with he | hm
      · exact he ▸ h.1
      · exact shortlexLtB_trans a b x h.1 ((List.pairwise_cons.mp hp).1 x hm)

theorem suffix_list_nodup : suffix_list.Nodup := by
  have h := chainIncrB_pairwise suffix_list (by decide)
  exact h.imp (fun hab => shortlexLtB_ne _ _ hab)

theorem base_eq_suffixed_nil (n dt : Str) :
    make_suffixed_filename n dt [] = base_filename n dt := by
  simp [make_suffixed_filename, base_filename]

theorem family_nodup (n dt : Str) : (family_filenames n dt).Nodup := by
  unfold family_filenames
  rw [List.nodup_cons]
  constructor
  · intro hmem
    rcases List.mem_map.mp hmem with ⟨s, hs, he⟩
    have hsne : s ≠ [] := by
      intro h0
      subst h0
      revert hs
      decide
    rw [← base_eq_suffixed_nil n dt] at he
    exact hsne (make_suffixed_filename_inj n dt he)
  · exact List.Nodup.map (make_suffixed_filename_inj n dt) suffix_list_nodup

theorem family_length (n dt : Str) : (family_filenames n dt).length = 702 := by
  have h : suffix_list.length = 701 := by decide
  simp [family_filenames, h]

/-- `Covers d fs cs`: the files of `d` at the slot names `fs` are exactly
readable files holding the contents `cs`, slot by slot, with all later
slots absent. -/
def Covers (d : Dir) : List Str → List Str → Prop
  | fs, [] => ∀ f ∈ fs, lookupFile d f = none
  | f :: fs, c :: cs =>
      lookupFile d f = some { content := c, readable := true } ∧ Covers d fs cs
  | [], _ :: _ => False

theorem safe_read_of_lookup (d : Dir) (f c0 : Str)
    (h : lookupFile d f = some { content := c0, readable := true }) :
    safe_read_file d f = some c0 := by
  simp [safe_read_file, h]

/-- If the content is already present in a filled slot, the loop reports
it as already present and changes nothing. -/
theorem write_loop_present (n dt c : Str) :
    ∀ (cs ss : List Str) (d : Dir),
      Covers d (ss.map (make_suffixed_filename n dt)) cs → c ∈ cs →
      ∃ f, write_loop n dt c d ss = (.ok (.AlreadyPresent f), d) := by
  intro cs
  induction cs with
  | nil => intro ss d _ hc; exact absurd hc (List.not_mem_nil c)
  | cons c0 cs' ih =>
    intro ss d hcov hc
    cases ss with
    | nil => exact absurd hcov (by simp [Covers])
    | cons s ss' =>
      simp only [List.map_cons, Covers] at hcov
      obtain ⟨hhead, htail⟩ := hcov
      have hsr := safe_read_of_lookup d _ c0 hhead
      by_cases hc0 : c0 = c
      · refine ⟨make_suffixed_filename n dt s, ?_⟩
        simp only [write_loop, hhead, hsr, if_pos hc0]
      · have hcm : c ∈ cs' := by
          rcases List.mem_cons.mp hc with he | hm
          · exact absurd he.symm hc0
          · exact hm
        obtain ⟨f, hf⟩ := ih ss' d htail hcm
        refine ⟨f, ?_⟩
        simp only [write_loop, hhead, hsr, if_neg hc0]
        exact hf

/-- If the content is fresh and a slot is still free, the loop writes it
at the first free slot and the slot description extends by one. -/
theorem write_loop_free (n dt c : Str) :
    ∀ (cs ss : List Str) (d : Dir),
      Covers d (ss.map (make_suffixed_filename n dt)) cs →
      (ss.map (make_suffixed_filename n dt)).Nodup →
      c ∉ cs → cs.length < ss.length →
      write_loop n dt c d ss =
        (.ok (.Written ((ss.map (make_suffixed_filename n dt)).getD cs.length [])),
          writeFile d ((ss.map (make_suffixed_filename n dt)).getD cs.length []) c)
      ∧ lookupFile d ((ss.map (make_suffixed_filename n dt)).getD cs.length []) = none
      ∧ Covers (writeFile d ((ss.map (make_suffixed_filename n dt)).getD cs.length []) c)
          (ss.map (make_suffixed_filename n dt)) (cs ++ [c]) := by
  intro cs
  induction cs with
  | nil =>
    intro ss d hcov hnd _ hlen
    cases ss with
    | nil => simp at hlen
    | cons s ss' =>
      simp only [Covers] at hcov
      have hnone : lookupFile d (make_suffixed_filename n dt s) = none :=
        hcov _ (by simp)
      simp only [List.map_cons, List.length_nil, List.getD_cons_zero, List.nil_append]
      refine ⟨?_, hnone, ?_⟩
      · simp only [write_loop, hnone]
      · simp only [Covers]
        refine ⟨lookupFile_writeFile_self d _ c, ?_⟩
        intro g hg
        have hgne : make_suffixed_filename n dt s ≠ g := by
          intro he
          rw [List.map_cons, List.nodup_cons] at hnd
          exact hnd.1 (he ▸ hg)
        rw [lookupFile_writeFile_ne d _ c g hgne]
        exact hcov g (List.mem_cons_of_mem _ hg)
  | cons c0 cs' ih =>
    intro ss d hcov hnd hc hlen
    cases ss with
    | nil => exact absurd hcov (by simp [Covers])
    | cons s ss' =>
      simp only [List.map_cons, Covers] at hcov
      obtain ⟨hhead, htail⟩ := hcov
      have hc0 : ¬ c0 = c := fun he => hc (he ▸ List.mem_cons_self c0 cs')
      have hcm : c ∉ cs' := fun hm => hc (List.mem_cons_of_mem c0 hm)
      have hnd' : (ss'.map (make_suffixed_filename n dt)).Nodup := by
        simp only [List.map_cons, List.nodup_cons] at hnd
        exact hnd.2
      have hlen' : cs'.length < ss'.length := by
        simp only [List.length_cons] at hlen
        omega
      obtain ⟨hw, hno, hcv⟩ := ih ss' d htail hnd' hcm hlen'
      have hsr := safe_read_of_lookup d _ c0 hhead
      have hne : make_suffixed_filename n dt s ≠
          (ss'.map (make_suffixed_filename n dt)).getD cs'.length [] := by
        intro he
        rw [he, hno] at hhead
        exact Option.noConfusion hhead
      simp only [List.map_cons, List.length_cons, List.getD_cons_succ, List.cons_append]
      refine ⟨?_, hno, ?_⟩
      · simp only [write_loop, hhead, hsr, if_neg hc0]
        exact hw
      · simp only [Covers]
        refine ⟨?_, hcv⟩
        rw [lookupFile_writeFile_ne d _ c _ (fun he => hne he.symm)]
        exact hhead

/-- If the content is fresh and every slot is filled, the loop raises the
exhaustion error and changes nothing. -/
theorem write_loop_full (n dt c : Str) :
    ∀ (cs ss : List Str) (d : Dir),
      Covers d (ss.map (make_suffixed_filename n dt)) cs →
      c ∉ cs → cs.length = ss.length →
      write_loop n dt c d ss = (.error .ExhaustedSuffixes, d) := by
  intro cs
  induction cs with
  | nil =>
    intro ss d _ _ hlen
    cases ss with
    | nil => simp only [write_loop]
    | cons s ss' => simp at hlen
  | cons c0 cs' ih =>
    intro ss d hcov hc hlen
    cases ss with
    | nil => exact absurd hcov (by simp [Covers])
    | cons s ss' =>
      simp only [List.map_cons, Covers] at hcov
      obtain ⟨hhead, htail⟩ := hcov
      have hc0 : ¬ c0 = c := fun he => hc (he ▸ List.mem_cons_self c0 cs')
      have hsr := safe_read_of_lookup d _ c0 hhead
      simp only [write_loop, hhead, hsr, if_neg hc0]
      exact ih ss' d htail (fun hm => hc (List.mem_cons_of_mem c0 hm))
        (by simp only [List.length_cons] at hlen; omega)

/-- Content already in some slot: the writer reports it present and
changes nothing. -/
theorem save_present (n dt c : Str) (d : Dir) (cs : List Str)
    (hcov : Covers d (family_filenames n dt) cs) (hc : c ∈ cs) :
    ∃ f, save_email_to_text_file n dt c d = (.ok (.AlreadyPresent f), d) := by
  cases cs with
  | nil => exact absurd hc (List.not_mem_nil c)
  | cons c0 cs' =>
    simp only [family_filenames, Covers] at hcov
    obtain ⟨hb, htail⟩ := hcov
    have hsr := safe_read_of_lookup d _ c0 hb
    by_cases hc0 : c0 = c
    · exact ⟨base_filename n dt,
        by simp only [save_email_to_text_file, hb, hsr, if_pos hc0]⟩
    · have hcm : c ∈ cs' := by
        rcases List.mem_cons.mp hc with he | hm
        · exact absurd he.symm hc0
        · exact hm
      obtain ⟨f, hf⟩ := write_loop_present n dt c cs' suffix_list d htail hcm
      refine ⟨f, ?_⟩
      simp only [save_email_to_text_file, hb, hsr, if_neg hc0]
      exact hf

/-- Fresh content with a free slot: the writer fills the first free slot. -/
theorem save_fresh (n dt c : Str) (d : Dir) (cs : List Str)
    (hcov : Covers d (family_filenames n dt) cs) (hc : c ∉ cs) (hlen : cs.length < 702) :
    save_email_to_text_file n dt c d =
      (.ok (.Written ((family_filenames n dt).getD cs.length [])),
        writeFile d ((family_filenames n dt).getD cs.length []) c)
    ∧ lookupFile d ((family_filenames n dt).getD cs.length []) = none
    ∧ Covers (writeFile d ((family_filenames n dt).getD cs.length []) c)
        (family_filenames n dt) (cs ++ [c]) := by
  cases cs with
  | nil =>
    simp only [Covers] at hcov
    have hb : lookupFile d (base_filename n dt) = none :=
      hcov _ (by simp [family_filenames])
    simp only [family_filenames, List.length_nil, List.getD_cons_zero, List.nil_append]
    refine ⟨?_, hb, ?_⟩
    · simp only [save_email_to_text_file, hb]
    · simp only [Covers]
      refine ⟨lookupFile_writeFile_self d _ c, ?_⟩
      intro g hg
      have hgne : base_filename n dt ≠ g := by
        intro he
        have hnd := family_nodup n dt
        unfold family_filenames at hnd
        exact (List.nodup_cons.mp hnd).1 (he ▸ hg)
      rw [lookupFile_writeFile_ne d _ c g hgne]
      exact hcov g (List.mem_cons_of_mem _ hg)
  | cons c0 cs' =>
    simp only [family_filenames, Covers] at hcov
    obtain ⟨hb, htail⟩ := hcov
    have hc0 : ¬ c0 = c := fun he => hc (he ▸ List.mem_cons_self c0 cs')
    have hsr := safe_read_of_lookup d _ c0 hb
    have hnd' : (suffix_list.map (make_suffixed_filename n dt)).Nodup := by
      have hnd := family_nodup n dt
      unfold family_filenames at hnd
      exact (List.nodup_cons.mp hnd).2
    have hlen' : cs'.length < suffix_list.length := by
      have h701 : suffix_list.length = 701 := by decide
      simp only [List.length_cons] at hlen
      omega
    obtain ⟨hw, hno, hcv⟩ := write_loop_free n dt c cs' suffix_list d htail hnd'
      (fun hm => hc (List.mem_cons_of_mem c0 hm)) hlen'
    have hne : base_filename n dt ≠
        (suffix_list.map (make_suffixed_filename n dt)).getD cs'.length [] := by
      intro he
      rw [he, hno] at hb
      exact Option.noConfusion hb
    simp only [family_filenames, List.length_cons, List.getD_cons_succ, List.cons_append]
    refine ⟨?_, hno, ?_⟩
    · simp only [save_email_to_text_file, hb, hsr, if_neg hc0]
      exact hw
    · simp only [Covers]
      refine ⟨?_, hcv⟩
      rw [lookupFile_writeFile_ne d _ c _ (fun he => hne he.symm)]
      exact hb

/-- Fresh content with all 702 slots filled: ExhaustedSuffixes, nothing
written. -/
theorem save_full (n dt c : Str) (d : Dir) (cs : List Str)
    (hcov : Covers d (family_filenames n dt) cs) (hc : c ∉ cs) (hlen : cs.length = 702) :
    save_email_to_text_file n dt c d = (.error .ExhaustedSuffixes, d) := by
  cases cs with
  | nil => simp at hlen
  | cons c0 cs' =>
    simp only [family_filenames, Covers] at hcov
    obtain ⟨hb, htail⟩ := hcov
    have hc0 : ¬ c0 = c := fun he => hc (he ▸ List.mem_cons_self c0 cs')
    have hsr := safe_read_of_lookup d _ c0 hb
    simp only [save_email_to_text_file, hb, hsr, if_neg hc0]
    refine write_loop_full n dt c cs' suffix_list d htail
      (fun hm => hc (List.mem_cons_of_mem c0 hm)) ?_
    have h701 : suffix_list.length = 701 := by decide
    simp only [List.length_cons] at hlen
    omega

/-! ### Reachable directory states and content counting -/

/-- Directory states reachable from an empty directory by writer calls
sharing one `(name, date_string)` pair. -/
inductive ReachableDir (n dt : Str) : Dir → Prop
  | refl : ReachableDir n dt emptyDir
  | step (c : Str) (d : Dir) : ReachableDir n dt d →
      ReachableDir n dt (save_email_to_text_file n dt c d).2

theorem covers_emptyDir (n dt : Str) : Covers emptyDir (family_filenames n dt) [] := by
  simp only [Covers]
  intro f _
  rfl

theorem reachable_covers (n dt : Str) (d : Dir) (h : ReachableDir n dt d) :
    ∃ cs : List Str, cs.length ≤ 702 ∧ Covers d (family_filenames n dt) cs := by
  induction h with
  | refl => exact ⟨[], by simp, covers_emptyDir n dt⟩
  | step c d0 hd ih =>
    obtain ⟨cs, hlen, hcov⟩ := ih
    by_cases hc : c ∈ cs
    · obtain ⟨f, hf⟩ := save_present n dt c d0 cs hcov hc
      rw [hf]
      exact ⟨cs, hlen, hcov⟩
    · rcases Nat.lt_or_ge cs.length 702 with hlt | hge
      · obtain ⟨hw, _, hcv⟩ := save_fresh n dt c d0 cs hcov hc hlt
        rw [hw]
        refine ⟨cs ++ [c], ?_, hcv⟩
        simp only [List.length_append, List.length_cons, List.length_nil]
        omega
      · have h702 : cs.length = 702 := le_antisymm hlen hge
        have hf := save_full n dt c d0 cs hcov hc h702
        rw [hf]
        exact ⟨cs, hlen, hcov⟩

/-- How many of the tuple's 702 slot names hold a file whose content is
`c`. -/
def countFamilyContent (n dt c : Str) (d : Dir) : Nat :=
  (family_filenames n dt).countP (fun fn =>
    match lookupFile d fn with
    | some i => decide (i.content = c)
    | none => false)

theorem covers_countP (c : Str) (d : Dir) :
    ∀ (cs fs : List Str), Covers d fs cs →
      fs.countP (fun fn =>
        match lookupFile d fn with
        | some i => decide (i.content = c)
        | none => false) = cs.count c := by
  intro cs
  induction cs with
  | nil =>
    intro fs hcov
    simp only [Covers] at hcov
    rw [List.count_nil]
    induction fs with
    | nil => rfl
    | cons f fs' ihf =>
      rw [List.countP_cons]
      have hf := hcov f (List.mem_cons_self f fs')
      rw [ihf (fun g hg => hcov g (List.mem_cons_of_mem _ hg))]
      simp [hf]
  | cons c0 cs' ih =>
    intro fs hcov
    cases fs with
    | nil => exact absurd hcov (by simp [Covers])
    | cons f fs' =>
      simp only [Covers] at hcov
      obtain ⟨hf, htail⟩ := hcov
      rw [List.countP_cons, ih fs' htail, List.count_cons, hf]
      simp only [decide_eq_true_eq, beq_iff_eq]

/-- C1 counterexample: the claim quantifies over every directory state
reachable by prior writer calls and asserts that after `Written` the
directory holds exactly one file with the written content for the tuple.
Filename families of different tuples can overlap: a prior call for
`(name "x", date "2020b")` creates `x 2020b email.txt`, which is also the
first suffixed slot of `(name "x", date "2020")`.  A `Written` then a
second identical call for the latter tuple does return `AlreadyPresent`
on the same filename with no write, but TWO family slots hold the
content. -/
theorem C1_counterexample :
    (save_email_to_text_file "x".toList "2020b".toList "c".toList emptyDir).1
      = .ok (.Written ("x 2020b email.txt".toList))
    ∧ (save_email_to_text_file "x".toList "2020".toList "c".toList
        (save_email_to_text_file "x".toList "2020b".toList "c".toList emptyDir).2).1
      = .ok (.Written ("x 2020 email.txt".toList))
    ∧ save_email_to_text_file "x".toList "2020".toList "c".toList
        (save_email_to_text_file "x".toList "2020".toList "c".toList
          (save_email_to_text_file "x".toList "2020b".toList "c".toList emptyDir).2).2
      = (.ok (.AlreadyPresent ("x 2020 email.txt".toList)),
         (save_email_to_text_file "x".toList "2020".toList "c".toList
           (save_email_to_text_file "x".toList "2020b".toList "c".toList emptyDir).2).2)
    ∧ countFamilyContent "x".toList "2020".toList "c".toList
        (save_email_to_text_file "x".toList "2020".toList "c".toList
          (save_email_to_text_file "x".toList "2020b".toList "c".toList emptyDir).2).2
      = 2 := by
  refine ⟨by decide, by decide, by decide, by decide⟩

/-- C1 (amended): for every directory state reachable from an empty
directory by prior writer calls with the same `(name, date_string)`
(arbitrary contents), a second identical call after a successful
`Written f` returns `AlreadyPresent f` (same filename), performs no
write (the directory is unchanged), and exactly one of the tuple's slot
files holds that content.  (The first two conclusions hold for EVERY
directory state: see `save_written_then_already`.) -/
theorem C1_theorem (n dt c : Str) (d : Dir) (hreach : ReachableDir n dt d) (f : Str)
    (hw : (save_email_to_text_file n dt c d).1 = .ok (.Written f)) :
    (save_email_to_text_file n dt c (save_email_to_text_file n dt c d).2).1
        = .ok (.AlreadyPresent f)
    ∧ (save_email_to_text_file n dt c (save_email_to_text_file n dt c d).2).2
        = (save_email_to_text_file n dt c d).2
    ∧ countFamilyContent n dt c (save_email_to_text_file n dt c d).2 = 1 := by
  have hpair : save_email_to_text_file n dt c d =
      (.ok (.Written f), (save_email_to_text_file n dt c d).2) := by
    rw [← hw]
  obtain ⟨h1, h2, h3⟩ := save_written_then_already n dt c d f _ hpair
  refine ⟨by rw [h3], by rw [h3], ?_⟩
  obtain ⟨cs, hlen, hcov⟩ := reachable_covers n dt d hreach
  have hc : c ∉ cs := by
    intro hm
    obtain ⟨g, hg⟩ := save_present n dt c d cs hcov hm
    rw [hg] at hw
    exact Outcome.noConfusion (Except.ok.inj hw)
  have hlt : cs.length < 702 := by
    rcases Nat.lt_or_ge cs.length 702 with h | h
    · exact h
    · have h702 := le_antisymm hlen h
      have hfull := save_full n dt c d cs hcov hc h702
      rw [hfull] at hw
      exact Except.noConfusion hw
  obtain ⟨hwr, hno, hcv⟩ := save_fresh n dt c d cs hcov hc hlt
  rw [hwr]
  unfold countFamilyContent
  rw [covers_countP c _ (cs ++ [c]) (family_filenames n dt) hcv, List.count_append]
  rw [List.count_eq_zero.mpr hc]
  simp

/-- C1 witness: the amended idempotence at a concrete first write into an
empty directory. -/
theorem C1_witness :
    (save_email_to_text_file "A".toList "2020 01 01".toList "hello".toList
        (save_email_to_text_file "A".toList "2020 01 01".toList "hello".toList emptyDir).2).1
      = .ok (.AlreadyPresent (base_filename "A".toList "2020 01 01".toList))
    ∧ (save_email_to_text_file "A".toList "2020 01 01".toList "hello".toList
        (save_email_to_text_file "A".toList "2020 01 01".toList "hello".toList emptyDir).2).2
      = (save_email_to_text_file "A".toList "2020 01 01".toList "hello".toList emptyDir).2
    ∧ countFamilyContent "A".toList "2020 01 01".toList "hello".toList
        (save_email_to_text_file "A".toList "2020 01 01".toList "hello".toList emptyDir).2
      = 1 :=
  C1_theorem "A".toList "2020 01 01".toList "hello".toList emptyDir ReachableDir.refl
    (base_filename "A".toList "2020 01 01".toList) (by decide)

/-- Sequential writer calls for a batch of contents under one
`(name, date_string)` pair; stops at the first raised error. -/
def save_all (n dt : Str) : List Str → Dir → List (Except WriteError Outcome) × Dir
  | [], d => ([], d)
  | c :: cs, d =>
    match save_email_to_text_file n dt c d with
    | (.ok o, d') =>
      let p := save_all n dt cs d'
      (.ok o :: p.1, p.2)
    | (.error e, d') => ([.error e], d')

/-- Running a batch of fresh pairwise-distinct contents writes them into
consecutive slots in order. -/
theorem save_all_run (n dt : Str) :
    ∀ (rest done : List Str) (d : Dir),
      Covers d (family_filenames n dt) done →
      (done ++ rest).Nodup → (done ++ rest).length ≤ 702 →
      (save_all n dt rest d).1 =
        (((family_filenames n dt).drop done.length).take rest.length).map
          (fun f => .ok (.Written f))
      ∧ (save_all n dt rest d).2.length = d.length + rest.length
      ∧ Covers (save_all n dt rest d).2 (family_filenames n dt) (done ++ rest) := by
  intro rest
  induction rest with
  | nil =>
    intro done d hcov _ _
    exact ⟨by simp [save_all], by simp [save_all], by simpa using hcov⟩
  | cons c rest' ih =>
    intro done d hcov hnd hlen
    have hcdone : c ∉ done := fun hm =>
      (List.nodup_append.mp hnd).2.2 hm (List.mem_cons_self c rest')
    have hdlen : done.length < 702 := by
      simp only [List.length_append, List.length_cons] at hlen
      omega
    obtain ⟨hw, hno, hcv⟩ := save_fresh n dt c d done hcov hcdone hdlen
    have heq : save_all n dt (c :: rest') d =
        (.ok (.Written ((family_filenames n dt).getD done.length [])) ::
          (save_all n dt rest'
            (writeFile d ((family_filenames n dt).getD done.length []) c)).1,
         (save_all n dt rest'
            (writeFile d ((family_filenames n dt).getD done.length []) c)).2) := by
      simp only [save_all, hw]
    have hnd2 : ((done ++ [c]) ++ rest').Nodup := by
      rw [List.append_assoc, List.singleton_append]
      exact hnd
    have hlen2 : ((done ++ [c]) ++ rest').length ≤ 702 := by
      rw [List.append_assoc, List.singleton_append]
      exact hlen
    obtain ⟨ih1, ih2, ih3⟩ :=
      ih (done ++ [c]) (writeFile d ((family_filenames n dt).getD done.length []) c)
        hcv hnd2 hlen2
    have hdl : done.length < (family_filenames n dt).length := by
      rw [family_length]
      exact hdlen
    have hdrop : (family_filenames n dt).drop done.length =
        (family_filenames n dt).getD done.length [] ::
          (family_filenames n dt).drop (done.length + 1) := by
      rw [List.drop_eq_getElem_cons hdl, List.getD_eq_getElem _ [] hdl]
    refine ⟨?_, ?_, ?_⟩
    · rw [heq, hdrop]
      simp only [List.length_cons, List.take_succ_cons, List.map_cons, List.cons.injEq,
        true_and]
      have hlen3 : (done ++ [c]).length = done.length + 1 := by
        simp
      rw [ih1, hlen3]
    · rw [heq]
      simp only []
      rw [ih2]
      simp only [writeFile, List.length_cons]
      omega
    · rw [heq]
      have hra : (done ++ [c]) ++ rest' = done ++ c :: rest' := by
        rw [List.append_assoc, List.singleton_append]
      rw [← hra]
      exact ih3

/-- C2: writing N pairwise-distinct contents for one
`(name, date_string)` into an initially empty directory (N ≤ 702) yields
N `Written` outcomes whose filenames are, in this order, the first N
slot names (base, then the `b`, `c`, ... suffixed names); these names
are pairwise distinct, the directory then holds exactly N files whose
slots carry the contents in write order, and once all 702 slots are
filled with distinct contents, writing one more distinct content raises
ExhaustedSuffixes without touching the directory. -/
theorem C2_theorem (n dt c : Str) (cs : List Str)
    (h1 : cs.Nodup) (h2 : cs.length ≤ 702) (h3 : c ∉ cs) :
    (save_all n dt cs emptyDir).1 =
      ((family_filenames n dt).take cs.length).map (fun f => .ok (.Written f))
    ∧ ((family_filenames n dt).take cs.length).Nodup
    ∧ (save_all n dt cs emptyDir).2.length = cs.length
    ∧ Covers (save_all n dt cs emptyDir).2 (family_filenames n dt) cs
    ∧ (cs.length = 702 →
        save_email_to_text_file n dt c (save_all n dt cs emptyDir).2 =
          (.error .ExhaustedSuffixes, (save_all n dt cs emptyDir).2)) := by
  obtain ⟨hr1, hr2, hr3⟩ := save_all_run n dt cs [] emptyDir (covers_emptyDir n dt)
    (by simpa using h1) (by simpa using h2)
  refine ⟨by simpa using hr1,
    List.Nodup.sublist (List.take_sublist _ _) (family_nodup n dt),
    by simpa [emptyDir] using hr2,
    by simpa using hr3, ?_⟩
  intro h702
  exact save_full n dt c _ cs (by simpa using hr3) h3 h702

/-- C2 witness: a concrete batch of two distinct contents lands in the
base slot then the `b` slot, and the exhaustion clause is vacuous. -/
theorem C2_witness :
    (save_all "A".toList "2020 01 01".toList ["u".toList, "v".toList] emptyDir).1 =
      ((family_filenames "A".toList "2020 01 01".toList).take 2).map
        (fun f => .ok (.Written f))
    ∧ ((family_filenames "A".toList "2020 01 01".toList).take 2).Nodup
    ∧ (save_all "A".toList "2020 01 01".toList ["u".toList, "v".toList] emptyDir).2.length = 2
    ∧ Covers (save_all "A".toList "2020 01 01".toList ["u".toList, "v".toList] emptyDir).2
        (family_filenames "A".toList "2020 01 01".toList) ["u".toList, "v".toList]
    ∧ ((["u".toList, "v".toList] : List Str).length = 702 →
        save_email_to_text_file "A".toList "2020 01 01".toList "w".toList
          (save_all "A".toList "2020 01 01".toList ["u".toList, "v".toList] emptyDir).2 =
        (.error .ExhaustedSuffixes,
          (save_all "A".toList "2020 01 01".toList ["u".toList, "v".toList] emptyDir).2)) :=
  C2_theorem "A".toList "2020 01 01".toList "w".toList ["u".toList, "v".toList]
    (by decide) (by decide) (by decide)

end MailArchiver
